import Mathlib

/-!
Verification of the AutoCRUD-RBAC schema-validation and authorization engine.

The definitions below are a shallow embedding of the TypeScript sources:
  backend/src/models/schema (modelSchema.ts, embedded in utils/jwt.ts):
    Permission, expandPermissions, hasPermission, the Zod model schemas and
    validateModelDefinition / validateModelDefinitions;
  backend/src/middleware/rbac.ts:
    loadModelDefinition, mapMethodToPermission, isAdmin, checkPermission;
  backend/src/routes/crud.ts:
    parseRecord and the list / create / update / delete record routes;
  backend/dist/routes/modelRoutes.js:
    saveVersionedModel (the version ledger).

JavaScript objects are modelled as association lists with JS assignment
semantics; JSON numbers are modelled as integers (the claims only involve
integer user ids and version numbers); strings are Lean strings.
-/

/-- Permission enum from modelSchema.ts (PermissionSchema). -/
inductive Permission where
  | create
  | read
  | update
  | delete
  | all
deriving DecidableEq, Repr

/-- RBAC rules: role name to non-empty permission list (RBACRulesSchema).
A JS object is modelled as an association list with distinct keys. -/
abbrev RBACRules := List (String × List Permission)

/-- expandPermissions from modelSchema.ts: a grant list containing the literal
all becomes the four concrete permissions; otherwise the literal all is
filtered out. -/
def expandPermissions (permissions : List Permission) : List Permission :=
  if permissions.contains Permission.all then
    [Permission.create, Permission.read, Permission.update, Permission.delete]
  else
    permissions.filter (fun p => p != Permission.all)

/-- hasPermission from modelSchema.ts: default-deny when rbac is undefined or
the role has no entry; otherwise membership in the expanded grant list. -/
def hasPermission (rbac : Option RBACRules) (role : String) (permission : Permission) : Bool :=
  match rbac with
  | none => false
  | some rules =>
    match rules.lookup role with
    | none => false
    | some grants => (expandPermissions grants).contains permission

/-- JSON scalar values stored in dynamic records. -/
inductive JsValue where
  | str (s : String)
  | num (n : Int)
  | bool (b : Bool)
  | null
deriving DecidableEq, Repr

/-- A JS object: association list from key to value (keys kept distinct by
Obj.set). -/
abbrev Obj := List (String × JsValue)

/-- Key lookup in a JS object. -/
def Obj.get (o : Obj) (k : String) : Option JsValue :=
  o.lookup k

/-- JS property assignment: replace the value in place when the key exists,
otherwise append the key. -/
def Obj.set (o : Obj) (k : String) (v : JsValue) : Obj :=
  if (o.lookup k).isSome then
    o.map (fun p => if p.1 = k then (k, v) else p)
  else
    o ++ [(k, v)]

/-- JS object spread: keys of the second object win. -/
def Obj.merge (a b : Obj) : Obj :=
  b.foldl (fun acc p => Obj.set acc p.1 p.2) a

/-- Drop a key from a JS object (rest-destructuring). -/
def Obj.remove (o : Obj) (k : String) : Obj :=
  o.filter (fun p => p.1 != k)

/-- Assignment from a possibly-absent source value.  An assignment of
undefined leaves a key that JSON.stringify then drops before the object is
stored, so it is modelled as removal. -/
def Obj.setFrom (o : Obj) (k : String) (v : Option JsValue) : Obj :=
  match v with
  | some v => Obj.set o k v
  | none => Obj.remove o k

/-- Field types from modelSchema.ts (FieldTypeSchema). -/
inductive FieldType where
  | string
  | number
  | boolean
  | date
  | json
  | relation
deriving DecidableEq, Repr

/-- Relation kinds from modelSchema.ts (RelationConfigSchema.type). -/
inductive RelationKind where
  | oneToOne
  | oneToMany
  | manyToMany
deriving DecidableEq, Repr

/-- Relation configuration (RelationConfigSchema). -/
structure RelationConfig where
  model : String
  type : RelationKind
  foreignKey : Option String
  references : Option String
deriving DecidableEq, Repr

/-- Field definition (FieldDefinitionSchema).  In the Zod schema required and
unique are written boolean default false then optional; ZodOptional returns
undefined before ZodDefault can fire, so an unspecified value stays
unspecified in the parsed output.  The parsed type therefore keeps them
optional, exactly as the inferred TypeScript type does. -/
structure FieldDefinition where
  name : String
  type : FieldType
  required : Option Bool
  unique : Option Bool
  default : Option JsValue
  relation : Option RelationConfig
deriving DecidableEq, Repr

/-- Model definition (ModelDefinitionSchema).  timestamps is boolean default
true then optional, which again leaves an unspecified value unspecified in
the parsed output. -/
structure ModelDefinition where
  name : String
  fields : List FieldDefinition
  ownerField : Option String
  rbac : Option RBACRules
  timestamps : Option Bool
deriving DecidableEq, Repr

/-- Regex test for the model-name pattern: an ASCII uppercase letter followed
by ASCII letters and digits. -/
def isPascalCase (s : String) : Bool :=
  match s.data with
  | [] => false
  | c :: rest => c.isUpper && rest.all (fun d => d.isAlpha || d.isDigit)

/-- Regex test for the field-name identifier pattern. -/
def isIdentifier (s : String) : Bool :=
  match s.data with
  | [] => false
  | c :: rest =>
    (c.isAlpha || c == '_') && rest.all (fun d => d.isAlpha || d.isDigit || d == '_')

/-- JS truthiness of an optional string: present and non-empty. -/
def strTruthy (o : Option String) : Bool :=
  match o with
  | none => false
  | some s => s != ""

/-- Per-field checks of FieldDefinitionSchema: name present and an identifier,
and the relation payload present exactly when the type is relation. -/
def fieldOk (f : FieldDefinition) : Bool :=
  f.name != "" && isIdentifier f.name &&
  !(f.type == FieldType.relation && f.relation.isNone) &&
  !(f.type != FieldType.relation && f.relation.isSome)

/-- RBAC map checks of RBACRulesSchema: role names non-empty, grant lists
non-empty. -/
def rbacOk (rbac : Option RBACRules) : Bool :=
  match rbac with
  | none => true
  | some rules => rules.all (fun p => p.1 != "" && !p.2.isEmpty)

/-- All checks of ModelDefinitionSchema: PascalCase name, at least one field,
every field well-formed, field names pairwise distinct (the JS code compares
the name count with the Set size), well-formed rbac, and a truthy ownerField
must name an existing field. -/
def modelOk (m : ModelDefinition) : Bool :=
  m.name != "" && isPascalCase m.name &&
  !m.fields.isEmpty &&
  m.fields.all fieldOk &&
  ((m.fields.map (fun f => f.name)).dedup.length == (m.fields.map (fun f => f.name)).length) &&
  rbacOk m.rbac &&
  (if strTruthy m.ownerField then
    m.fields.any (fun f => some f.name == m.ownerField)
  else true)

/-- Result of a validation call.  The source aggregates per-path error
messages; the claims only concern the success boundary and the success
payload, so the error list is collapsed into a single invalid state. -/
inductive ValidationResult (α : Type) where
  | ok (data : α)
  | invalid
deriving DecidableEq, Repr

/-- validateModelDefinition from modelSchema.ts, restricted to shape-correct
inputs.  Zod maps a passing input through unchanged: no default is applied
(see FieldDefinition above). -/
def validateModelDefinition (m : ModelDefinition) : ValidationResult ModelDefinition :=
  if modelOk m then ValidationResult.ok m else ValidationResult.invalid

/-- Second pass of validateModelDefinitions: every relation-typed field with a
relation payload must target a name in the batch. -/
def relationTargetsOk (names : List String) (m : ModelDefinition) : Bool :=
  m.fields.all (fun f =>
    match f.relation with
    | some rc => !(f.type == FieldType.relation) || names.contains rc.model
    | none => true)

/-- validateModelDefinitions from modelSchema.ts: each model is validated
individually, then relation targets are resolved against the batch names.
There is no check that batch names are pairwise distinct. -/
def validateModelDefinitions (models : List ModelDefinition) :
    ValidationResult (List ModelDefinition) :=
  if models.all modelOk then
    if models.all (relationTargetsOk (models.map (fun m => m.name))) then
      ValidationResult.ok models
    else ValidationResult.invalid
  else ValidationResult.invalid

/-- Authenticated identity attached to a request by the authenticate
middleware (userId and role from the JWT payload). -/
structure User where
  userId : Int
  role : String
deriving DecidableEq, Repr

/-- Outcome of the injected model-definition fetch (fs.readFile plus
JSON.parse in loadModelDefinition): the file exists and parses, the file is
absent, or the collaborator call fails (I/O error, timeout, corrupt JSON). -/
inductive ModelFetch where
  | found (m : ModelDefinition)
  | absent
  | failure
deriving DecidableEq, Repr

/-- loadModelDefinition from rbac.ts: the whole body is wrapped in a
try/catch that returns null on any error, so absence and collaborator
failure both come back as none. -/
def loadModelDefinition (fetch : String → ModelFetch) (modelName : String) :
    Option ModelDefinition :=
  match fetch modelName with
  | ModelFetch.found m => some m
  | ModelFetch.absent => none
  | ModelFetch.failure => none

/-- JS toUpperCase, modelled as a character-wise map. -/
def toUpperString (s : String) : String :=
  String.mk (s.data.map Char.toUpper)

/-- mapMethodToPermission from rbac.ts. -/
def mapMethodToPermission (method : String) : Option Permission :=
  let u := toUpperString method
  if u == "POST" then some Permission.create
  else if u == "GET" then some Permission.read
  else if u == "PUT" then some Permission.update
  else if u == "PATCH" then some Permission.update
  else if u == "DELETE" then some Permission.delete
  else none

/-- isAdmin from rbac.ts: the single reserved admin role. -/
def isAdmin (role : String) : Bool :=
  role == "Admin"

/-- JS falsiness of an optional string: absent or empty. -/
def strFalsy (o : Option String) : Bool :=
  match o with
  | none => true
  | some s => s == ""

/-- The request as seen by the checkPermission middleware: identity attached
by authenticate (or none), HTTP method, and the modelName route param. -/
structure AuthedRequest where
  user : Option User
  method : String
  modelNameParam : Option String
deriving DecidableEq, Repr

/-- Outcome of the checkPermission middleware: a terminal response with a
status code, or next() with whatever was stored on the request
(req.modelDefinition / req.requiredPermission, none when not set). -/
inductive CheckResult where
  | respond (status : Nat) (message : String)
  | next (modelDefinition : Option ModelDefinition) (requiredPermission : Option Permission)
deriving DecidableEq, Repr

/-- checkPermission from rbac.ts.  Response message bodies are abbreviated
(the source interpolates the model name into the 404 text); branch identity
and status codes are preserved exactly.  Note that req.modelDefinition is
stored only when the permission is update or delete and the model has a
truthy ownerField; on every other path next() runs with nothing stored. -/
def checkPermission (modelNameArg : Option String) (fetch : String → ModelFetch)
    (req : AuthedRequest) : CheckResult :=
  match req.user with
  | none => CheckResult.respond 401 "Authentication required"
  | some user =>
    let actualModelName := if strFalsy modelNameArg then req.modelNameParam else modelNameArg
    if strFalsy actualModelName then CheckResult.respond 400 "Model name is required"
    else
      let mn := actualModelName.getD ""
      if isAdmin user.role then CheckResult.next none none
      else
        match loadModelDefinition fetch mn with
        | none => CheckResult.respond 404 ("Model not found: " ++ mn)
        | some model =>
          match mapMethodToPermission req.method with
          | none => CheckResult.respond 400 "Invalid HTTP method"
          | some permission =>
            if !(hasPermission model.rbac user.role permission) then
              CheckResult.respond 403 "Insufficient permissions"
            else if (permission == Permission.update || permission == Permission.delete)
                && strTruthy model.ownerField then
              CheckResult.next (some model) (some permission)
            else CheckResult.next none none

/-- A row of the prisma Record table: autoincrement id, model name, the JSON
data payload, and timestamps. -/
structure StoredRecord where
  id : Nat
  modelName : String
  data : Obj
  createdAt : JsValue
  updatedAt : JsValue
deriving DecidableEq, Repr

/-- parseRecord from crud.ts: spread of id, then the stored data, then the
timestamps (later spread entries win). -/
def parseRecord (r : StoredRecord) : Obj :=
  Obj.set (Obj.set (Obj.merge [("id", JsValue.num r.id)] r.data) "createdAt" r.createdAt)
    "updatedAt" r.updatedAt

/-- prisma.record.findFirst with an id and modelName filter. -/
def findRecord (db : List StoredRecord) (modelName : String) (rid : Nat) :
    Option StoredRecord :=
  db.find? (fun r => r.id == rid && r.modelName == modelName)

/-- Strict equality between a record field value and the optional actor id
(record[field] === req.user?.userId).  Two undefineds compare equal under
strict equality; an undefined against a number does not. -/
def jsEqNum (v : Option JsValue) (n : Option Int) : Bool :=
  match v, n with
  | some (JsValue.num a), some b => a == b
  | none, none => true
  | _, _ => false

/-- Result of one CRUD route: an error response, a list response, a single
record response, or a 201 created response. -/
inductive RouteResult where
  | err (status : Nat) (message : String)
  | okList (count : Nat) (data : List Obj)
  | okRecord (data : Obj)
  | createdRecord (data : Obj)
deriving DecidableEq, Repr

/-- GET /api/crud/:modelName from crud.ts: authenticate and checkPermission,
fetch all records of the model, then filter by ownership only when
req.modelDefinition carries a truthy ownerField and the role is not Admin.
Database ordering (createdAt desc) is abstracted as the stored order. -/
def listRecords (fetch : String → ModelFetch) (user : Option User) (modelName : String)
    (db : List StoredRecord) : RouteResult :=
  match checkPermission none fetch ⟨user, "GET", some modelName⟩ with
  | CheckResult.respond s m => RouteResult.err s m
  | CheckResult.next modelDef _ =>
    let records := (db.filter (fun r => r.modelName == modelName)).map parseRecord
    let filtered :=
      match modelDef with
      | some model =>
        if strTruthy model.ownerField && !((user.map User.role) == some "Admin") then
          some (records.filter (fun r =>
            jsEqNum (Obj.get r (model.ownerField.getD "")) (user.map User.userId)))
        else none
      | none => none
    match filtered with
    | some userRecords => RouteResult.okList userRecords.length userRecords
    | none => RouteResult.okList records.length records

/-- POST /api/crud/:modelName from crud.ts: the owner field is force-set only
when req.modelDefinition carries a truthy ownerField; the record is stored
with a fresh autoincrement id. -/
def createRecord (fetch : String → ModelFetch) (user : Option User) (modelName : String)
    (body : Obj) (now : JsValue) (db : List StoredRecord) :
    RouteResult × List StoredRecord :=
  match checkPermission none fetch ⟨user, "POST", some modelName⟩ with
  | CheckResult.respond s m => (RouteResult.err s m, db)
  | CheckResult.next modelDef _ =>
    let recordData :=
      match modelDef with
      | some model =>
        if strTruthy model.ownerField then
          Obj.setFrom body (model.ownerField.getD "")
            ((user.map User.userId).map JsValue.num)
        else body
      | none => body
    let newId := (db.map (fun r => r.id)).foldl max 0 + 1
    let newRec : StoredRecord := ⟨newId, modelName, recordData, now, now⟩
    (RouteResult.createdRecord (parseRecord newRec), db ++ [newRec])

/-- PUT /api/crud/:modelName/:id from crud.ts: find the record (404 when
absent), check ownership when req.modelDefinition carries a truthy
ownerField and the role is not Admin (403 when not the owner), then merge
the body over the record, restore the owner field, strip id and timestamps,
and store.  Record ids are a primary key, so the prisma update by id is
modelled as an in-place map. -/
def updateRecord (fetch : String → ModelFetch) (user : Option User) (modelName : String)
    (rid : Nat) (body : Obj) (now : JsValue) (db : List StoredRecord) :
    RouteResult × List StoredRecord :=
  match checkPermission none fetch ⟨user, "PUT", some modelName⟩ with
  | CheckResult.respond s m => (RouteResult.err s m, db)
  | CheckResult.next modelDef _ =>
    match findRecord db modelName rid with
    | none => (RouteResult.err 404 "Record not found", db)
    | some dbRec =>
      let record := parseRecord dbRec
      let ownerDenied :=
        match modelDef with
        | some model =>
          strTruthy model.ownerField && !((user.map User.role) == some "Admin") &&
            !(jsEqNum (Obj.get record (model.ownerField.getD "")) (user.map User.userId))
        | none => false
      if ownerDenied then
        (RouteResult.err 403 "Access denied: You can only update your own records", db)
      else
        let updatedData := Obj.merge record body
        let updatedData :=
          match modelDef with
          | some model =>
            if strTruthy model.ownerField then
              Obj.setFrom updatedData (model.ownerField.getD "")
                (Obj.get record (model.ownerField.getD ""))
            else updatedData
          | none => updatedData
        let dataToStore := Obj.remove (Obj.remove (Obj.remove updatedData "id") "createdAt") "updatedAt"
        let newRec : StoredRecord := ⟨dbRec.id, dbRec.modelName, dataToStore, dbRec.createdAt, now⟩
        (RouteResult.okRecord (parseRecord newRec),
          db.map (fun s => if s.id == rid then ⟨s.id, s.modelName, dataToStore, s.createdAt, now⟩ else s))

/-- DELETE /api/crud/:modelName/:id from crud.ts: find the record (404 when
absent), check ownership like the update route, then delete by id and
return the parsed record. -/
def deleteRecord (fetch : String → ModelFetch) (user : Option User) (modelName : String)
    (rid : Nat) (db : List StoredRecord) : RouteResult × List StoredRecord :=
  match checkPermission none fetch ⟨user, "DELETE", some modelName⟩ with
  | CheckResult.respond s m => (RouteResult.err s m, db)
  | CheckResult.next modelDef _ =>
    match findRecord db modelName rid with
    | none => (RouteResult.err 404 "Record not found", db)
    | some dbRec =>
      let record := parseRecord dbRec
      let ownerDenied :=
        match modelDef with
        | some model =>
          strTruthy model.ownerField && !((user.map User.role) == some "Admin") &&
            !(jsEqNum (Obj.get record (model.ownerField.getD "")) (user.map User.userId))
        | none => false
      if ownerDenied then
        (RouteResult.err 403 "Access denied: You can only delete your own records", db)
      else
        (RouteResult.okRecord record, db.filter (fun s => !(s.id == rid)))

/-- Digit character for a decimal digit (template-literal printing of a
number). -/
def charOfDigit (d : Nat) : Char :=
  match d with
  | 0 => '0'
  | 1 => '1'
  | 2 => '2'
  | 3 => '3'
  | 4 => '4'
  | 5 => '5'
  | 6 => '6'
  | 7 => '7'
  | 8 => '8'
  | 9 => '9'
  | _ => '0'

/-- Decimal digit denoted by a digit character (parseInt on one char). -/
def digitOfChar (c : Char) : Nat :=
  match c with
  | '0' => 0
  | '1' => 1
  | '2' => 2
  | '3' => 3
  | '4' => 4
  | '5' => 5
  | '6' => 6
  | '7' => 7
  | '8' => 8
  | '9' => 9
  | _ => 0

/-- Decimal rendering of a natural number as characters, most significant
digit first. -/
def natDigits (k : Nat) : List Char :=
  if k = 0 then ['0'] else ((Nat.digits 10 k).reverse.map charOfDigit)

/-- parseInt of a most-significant-first digit string. -/
def digitsVal (ds : List Char) : Nat :=
  Nat.ofDigits 10 (ds.reverse.map digitOfChar)

/-- File names in the versions directory are character lists; this builds
the name written by saveVersionedModel via the template literal
name _v version .json. -/
def versionFileName (name : List Char) (k : Nat) : List Char :=
  name ++ ['_', 'v'] ++ natDigits k ++ ['.', 'j', 's', 'o', 'n']

/-- The regex applied to a reversed file name: a .json suffix, then a
non-empty greedy digit run, then the characters v and underscore.  Returns
the captured version number. -/
def revMatchVersion (r : List Char) : Option Nat :=
  match r with
  | 'n' :: 'o' :: 's' :: 'j' :: '.' :: rest =>
    let ds := rest.takeWhile Char.isDigit
    if ds.isEmpty then none
    else
      match rest.drop ds.length with
      | 'v' :: '_' :: _ => some (digitsVal ds.reverse)
      | _ => none
  | _ => none

/-- The anchored regex _v digits .json dollar of saveVersionedModel, as a
match on the file name. -/
def matchVersion (f : List Char) : Option Nat :=
  revMatchVersion f.reverse

/-- The filter in saveVersionedModel: files starting with name_v and ending
in .json. -/
def modelVersionFiles (files : List (List Char)) (name : List Char) : List (List Char) :=
  files.filter (fun f =>
    (name ++ ['_', 'v']).isPrefixOf f && List.isSuffixOf ['.', 'j', 's', 'o', 'n'] f)

/-- Math.max over a list of naturals (the source list is non-empty wherever
this is used, so the 0 seed is neutral). -/
def listMax (l : List Nat) : Nat :=
  l.foldl max 0

/-- Next version number in saveVersionedModel: 1 when the model has no
version files, otherwise the maximum parsed version plus 1 (an unparsable
name counts as 0, matching the match-or-zero in the source). -/
def nextVersion (files : List (List Char)) (name : List Char) : Nat :=
  let modelVersions := modelVersionFiles files name
  if modelVersions.isEmpty then 1
  else listMax (modelVersions.map (fun f => (matchVersion f).getD 0)) + 1

/-- saveVersionedModel from modelRoutes.js: compute the next version for the
model name from the directory listing and write the versioned file.  The
directory is modelled as the list of file names in creation order. -/
def saveVersionedModel (files : List (List Char)) (name : List Char) :
    Nat × List (List Char) :=
  let v := nextVersion files name
  (v, files ++ [versionFileName name v])

/-- Run a sequence of saves, returning each save paired with the version
number it was assigned. -/
def runSaves (files : List (List Char)) : List (List Char) → List (List Char × Nat)
  | [] => []
  | n :: rest =>
    let r := saveVersionedModel files n
    (n, r.1) :: runSaves r.2 rest

/-- PascalCase model-name test on character lists, matching isPascalCase;
every name reaching saveVersionedModel passed validation, so it satisfies
this. -/
def validModelNameChars (s : List Char) : Bool :=
  match s with
  | [] => false
  | c :: rest => c.isUpper && rest.all (fun d => d.isAlpha || d.isDigit)

/-- The versions assigned to the saves of one model name within a run. -/
def versionsFor (name : List Char) (saves : List (List Char × Nat)) : List Nat :=
  (saves.filter (fun p => p.1 == name)).map (fun p => p.2)

/-- Concrete model used by the spec scenarios: Employee with an ownerId
owner field and Admin / Manager / Viewer grants. -/
def employeeModel : ModelDefinition :=
  { name := "Employee"
    fields :=
      [ { name := "id", type := FieldType.number, required := some true,
          unique := some true, default := none, relation := none }
      , { name := "ownerId", type := FieldType.number, required := some true,
          unique := none, default := none, relation := none } ]
    ownerField := some "ownerId"
    rbac := some
      [ ("Admin", [Permission.all])
      , ("Manager", [Permission.create, Permission.read, Permission.update])
      , ("Viewer", [Permission.read]) ]
    timestamps := some true }

/-- A model store holding exactly the Employee model. -/
def fetchEmployee : String → ModelFetch :=
  fun n => if n == "Employee" then ModelFetch.found employeeModel else ModelFetch.absent

/-- A model store whose lookups always fail (collaborator failure). -/
def fetchFailing : String → ModelFetch :=
  fun _ => ModelFetch.failure

/-- Manager actor with user id 7. -/
def mgr7 : User :=
  { userId := 7, role := "Manager" }

/-- Employee record owned by user 7. -/
def recOwned7 : StoredRecord :=
  { id := 1, modelName := "Employee"
    data := [("name", JsValue.str "alpha"), ("ownerId", JsValue.num 7)]
    createdAt := JsValue.str "t1", updatedAt := JsValue.str "t1" }

/-- Employee record owned by user 9. -/
def recOwned9 : StoredRecord :=
  { id := 2, modelName := "Employee"
    data := [("name", JsValue.str "beta"), ("ownerId", JsValue.num 9)]
    createdAt := JsValue.str "t2", updatedAt := JsValue.str "t2" }

/-- Minimal candidate model: one string field, with required, unique and
timestamps all left unspecified. -/
def minimalCandidate : ModelDefinition :=
  { name := "A"
    fields := [ { name := "f", type := FieldType.string, required := none,
                  unique := none, default := none, relation := none } ]
    ownerField := none
    rbac := none
    timestamps := none }

/-- A model store where every model is absent. -/
def fetchAbsent : String → ModelFetch :=
  fun _ => ModelFetch.absent

/-- Task model whose Editor role holds the all shorthand (so delete is
granted). -/
def taskModel : ModelDefinition :=
  { name := "Task"
    fields :=
      [ { name := "id", type := FieldType.number, required := some true,
          unique := some true, default := none, relation := none }
      , { name := "ownerId", type := FieldType.number, required := some true,
          unique := none, default := none, relation := none } ]
    ownerField := some "ownerId"
    rbac := some [("Editor", [Permission.all])]
    timestamps := some true }

/-- A model store holding exactly the Task model. -/
def fetchTask : String → ModelFetch :=
  fun n => if n == "Task" then ModelFetch.found taskModel else ModelFetch.absent

/-- Editor actor with user id 5. -/
def editor5 : User :=
  { userId := 5, role := "Editor" }

/-- Task record owned by user 5. -/
def taskOwned5 : StoredRecord :=
  { id := 3, modelName := "Task"
    data := [("title", JsValue.str "t"), ("ownerId", JsValue.num 5)]
    createdAt := JsValue.str "s1", updatedAt := JsValue.str "s1" }

/-- Task record owned by user 8. -/
def taskOwned8 : StoredRecord :=
  { id := 4, modelName := "Task"
    data := [("title", JsValue.str "u"), ("ownerId", JsValue.num 8)]
    createdAt := JsValue.str "s2", updatedAt := JsValue.str "s2" }

/-- Replacing the value of an existing key rewrites exactly the pairs with
that key. -/
theorem lookup_replace_self (o : Obj) (k : String) (v : JsValue) :
    List.lookup k (o.map (fun p => if p.1 = k then (k, v) else p)) =
      (List.lookup k o).map (fun _ => v) := by
  induction o with
  | nil => rfl
  | cons p t ih =>
    obtain ⟨a, w⟩ := p
    rw [List.map_cons]
    show List.lookup k ((if a = k then (k, v) else (a, w)) :: _) = _
    by_cases hk : a = k
    · rw [if_pos hk]
      subst hk
      simp [List.lookup]
    · rw [if_neg hk]
      have hba : (k == a) = false := by
        simpa [beq_iff_eq] using fun h => hk h.symm
      simp [List.lookup, hba, ih]

/-- Replacing the value of one key leaves lookups of the other keys
unchanged. -/
theorem lookup_replace_ne (o : Obj) (k k' : String) (v : JsValue) (h : k' ≠ k) :
    List.lookup k' (o.map (fun p => if p.1 = k then (k, v) else p)) =
      List.lookup k' o := by
  induction o with
  | nil => rfl
  | cons p t ih =>
    obtain ⟨a, w⟩ := p
    rw [List.map_cons]
    show List.lookup k' ((if a = k then (k, v) else (a, w)) :: _) = _
    by_cases hk : a = k
    · rw [if_pos hk]
      subst hk
      have hba : (k' == a) = false := by simpa [beq_iff_eq] using h
      simp [List.lookup, hba, ih]
    · rw [if_neg hk]
      simp [List.lookup, ih]

/-- Appending to an object distributes over lookup. -/
theorem lookup_append_obj (a b : Obj) (k : String) :
    List.lookup k (a ++ b) = (List.lookup k a).orElse (fun _ => List.lookup k b) := by
  induction a with
  | nil => rfl
  | cons p t ih =>
    obtain ⟨x, w⟩ := p
    by_cases hk : k = x
    · simp [List.lookup, hk]
    · have hbx : (k == x) = false := by simpa [beq_iff_eq] using hk
      simp [List.lookup, hbx, ih]

/-- Reading back the key just assigned. -/
theorem Obj.get_set_self (o : Obj) (k : String) (v : JsValue) :
    Obj.get (Obj.set o k v) k = some v := by
  unfold Obj.set Obj.get
  by_cases h : (o.lookup k).isSome
  · rw [if_pos h, lookup_replace_self]
    obtain ⟨w, hw⟩ := Option.isSome_iff_exists.mp h
    simp [hw]
  · rw [if_neg h, lookup_append_obj]
    have hnone : o.lookup k = none := Option.not_isSome_iff_eq_none.mp h
    simp [hnone, List.lookup]

/-- Assignment of one key leaves the other keys unchanged. -/
theorem Obj.get_set_ne (o : Obj) (k k' : String) (v : JsValue) (h : k' ≠ k) :
    Obj.get (Obj.set o k v) k' = Obj.get o k' := by
  unfold Obj.set Obj.get
  by_cases hs : (o.lookup k).isSome
  · rw [if_pos hs, lookup_replace_ne _ _ _ _ h]
  · rw [if_neg hs, lookup_append_obj]
    have hbk : (k' == k) = false := by simpa [beq_iff_eq] using h
    cases hl : o.lookup k' <;> simp [hl, List.lookup, hbk]

/-- A key outside an object's key set has no binding. -/
theorem lookup_none_of_not_mem_keys (o : Obj) (k : String)
    (h : k ∉ o.map Prod.fst) : List.lookup k o = none := by
  induction o with
  | nil => rfl
  | cons p t ih =>
    obtain ⟨a, w⟩ := p
    simp only [List.map_cons, List.mem_cons, not_or] at h
    have hba : (k == a) = false := by simpa [beq_iff_eq] using h.1
    simp [List.lookup, hba, ih h.2]

/-- Spread semantics of merge on lookups: a key bound in the second object
wins, otherwise the first object answers.  The second object must have
distinct keys (a parsed JSON object always does). -/
theorem Obj.get_merge (a b : Obj) (k : String) (hb : (b.map Prod.fst).Nodup) :
    Obj.get (Obj.merge a b) k = ((Obj.get b k).orElse (fun _ => Obj.get a k)) := by
  induction b generalizing a with
  | nil => rfl
  | cons p t ih =>
    obtain ⟨x, w⟩ := p
    simp only [List.map_cons, List.nodup_cons] at hb
    have hstep : Obj.merge a ((x, w) :: t) = Obj.merge (Obj.set a x w) t := rfl
    rw [hstep, ih _ hb.2]
    by_cases hk : k = x
    · subst hk
      have ht : List.lookup k t = none :=
        lookup_none_of_not_mem_keys t k hb.1
      show (Obj.get t k).orElse _ = (Obj.get ((k, w) :: t) k).orElse _
      unfold Obj.get
      simp [ht, List.lookup]
      exact Obj.get_set_self a k w
    · have hbx : (k == x) = false := by simpa [beq_iff_eq] using hk
      show (Obj.get t k).orElse _ = (Obj.get ((x, w) :: t) k).orElse _
      unfold Obj.get
      simp only [List.lookup, hbx]
      cases hl : List.lookup k t
      · simp only [hl, Option.orElse]
        exact Obj.get_set_ne a x k w hk
      · simp [hl]

/-- The removed key has no binding afterwards. -/
theorem Obj.get_remove_self (o : Obj) (k : String) :
    Obj.get (Obj.remove o k) k = none := by
  unfold Obj.remove Obj.get
  induction o with
  | nil => rfl
  | cons p t ih =>
    obtain ⟨a, w⟩ := p
    by_cases hk : a = k
    · subst hk
      simp [List.filter, ih]
    · have hne : (a != k) = true := by simpa [bne_iff_ne] using hk
      have hba : (k == a) = false := by
        simpa [beq_iff_eq] using fun h => hk h.symm
      simp [List.filter, hne, List.lookup, hba, ih]

/-- Removing one key leaves the other keys unchanged. -/
theorem Obj.get_remove_ne (o : Obj) (k k' : String) (h : k' ≠ k) :
    Obj.get (Obj.remove o k) k' = Obj.get o k' := by
  unfold Obj.remove Obj.get
  induction o with
  | nil => rfl
  | cons p t ih =>
    obtain ⟨a, w⟩ := p
    by_cases hk : a = k
    · subst hk
      have hba : (k' == a) = false := by simpa [beq_iff_eq] using h
      simp [List.filter, List.lookup, hba, ih]
    · have hne : (a != k) = true := by simpa [bne_iff_ne] using hk
      by_cases hk' : k' = a
      · subst hk'
        simp [List.filter, hne, List.lookup]
      · have hba : (k' == a) = false := by simpa [beq_iff_eq] using hk'
        simp [List.filter, hne, List.lookup, hba, ih]

/-- C3: hasPermission is false when rbac is undefined or the role is absent;
with a grant list present it answers membership in the expanded grants,
where a grant list containing all expands to exactly the four concrete
permissions and a list without all is kept with any literal all removed. -/
theorem hasPermission_membership_spec :
    (∀ (role : String) (p : Permission), hasPermission none role p = false)
    ∧ (∀ (rules : RBACRules) (role : String) (p : Permission),
        rules.lookup role = none → hasPermission (some rules) role p = false)
    ∧ (∀ (rules : RBACRules) (role : String) (p : Permission) (grants : List Permission),
        rules.lookup role = some grants →
          (hasPermission (some rules) role p = true ↔ p ∈ expandPermissions grants))
    ∧ (∀ grants : List Permission, Permission.all ∈ grants →
        expandPermissions grants =
          [Permission.create, Permission.read, Permission.update, Permission.delete])
    ∧ (∀ grants : List Permission, Permission.all ∉ grants →
        expandPermissions grants = grants.filter (fun q => q != Permission.all)
          ∧ expandPermissions grants = grants) := by
  refine ⟨fun role p => rfl, ?_, ?_, ?_, ?_⟩
  · intro rules role p h
    simp [hasPermission, h]
  · intro rules role p grants h
    simp [hasPermission, h, List.elem_iff]
  · intro grants h
    have hc : grants.contains Permission.all = true := List.elem_iff.mpr h
    unfold expandPermissions
    rw [if_pos hc]
  · intro grants h
    have hc : ¬ (grants.contains Permission.all = true) :=
      fun hx => h (List.elem_iff.mp hx)
    constructor
    · unfold expandPermissions
      rw [if_neg hc]
    · unfold expandPermissions
      rw [if_neg hc]
      apply List.filter_eq_self.mpr
      intro q hq
      have hqa : q ≠ Permission.all := fun hqe => h (hqe ▸ hq)
      simpa [bne_iff_ne] using hqa

/-- C3 witness: concrete instances of each clause of the hasPermission
specification. -/
theorem hasPermission_membership_spec_witness :
    hasPermission (some [("Viewer", [Permission.read])]) "Viewer" Permission.read = true
    ∧ hasPermission (some [("Viewer", [Permission.read])]) "Manager" Permission.read = false
    ∧ expandPermissions [Permission.all, Permission.read] =
        [Permission.create, Permission.read, Permission.update, Permission.delete]
    ∧ expandPermissions [Permission.read] = [Permission.read] := by
  refine ⟨?_, ?_, ?_, ?_⟩
  · exact (hasPermission_membership_spec.2.2.1 [("Viewer", [Permission.read])]
      "Viewer" Permission.read [Permission.read] rfl).mpr (by decide)
  · exact hasPermission_membership_spec.2.1 [("Viewer", [Permission.read])]
      "Manager" Permission.read rfl
  · exact hasPermission_membership_spec.2.2.2.1 [Permission.all, Permission.read]
      (by decide)
  · exact (hasPermission_membership_spec.2.2.2.2 [Permission.read] (by decide)).2

/-- C10: querying the literal permission all never succeeds, for any rbac map
and role, even when the grant list contains all. -/
theorem hasPermission_all_always_false (rbac : Option RBACRules) (role : String) :
    hasPermission rbac role Permission.all = false := by
  cases rbac with
  | none => rfl
  | some rules =>
    cases h : rules.lookup role with
    | none => simp [hasPermission, h]
    | some grants =>
      have hexp : (expandPermissions grants).contains Permission.all = false := by
        by_cases hall : grants.contains Permission.all = true
        · unfold expandPermissions
          rw [if_pos hall]
          decide
        · unfold expandPermissions
          rw [if_neg hall]
          by_contra hne
          have hne2 : (List.filter (fun p => p != Permission.all) grants).contains
              Permission.all = true := by
            cases hx : (List.filter (fun p => p != Permission.all) grants).contains
                Permission.all
            · exact absurd hx hne
            · rfl
          have hmem : Permission.all ∈ List.filter (fun p => p != Permission.all) grants :=
            List.elem_iff.mp hne2
          simp [List.mem_filter] at hmem
      have hm : Permission.all ∉ expandPermissions grants := by
        intro hmm
        have h2 : (expandPermissions grants).contains Permission.all = true :=
          List.elem_iff.mpr hmm
        rw [h2] at hexp
        exact Bool.noConfusion hexp
      simp [hasPermission, h, hm]

/-- C1 (code bug): an authenticated non-admin Manager with the read
permission on the Employee model, which declares ownerField ownerId,
performs the collection read; the route returns every stored record,
including the record owned by user 9, because checkPermission never stores
req.modelDefinition for a read and the ownership filter in the route is
therefore dead. -/
theorem listRecords_returns_foreign_records :
    hasPermission employeeModel.rbac mgr7.role Permission.read = true
    ∧ employeeModel.ownerField = some "ownerId"
    ∧ mgr7.role ≠ "Admin"
    ∧ Obj.get (parseRecord recOwned9) "ownerId" = some (JsValue.num 9)
    ∧ mgr7.userId = 7
    ∧ listRecords fetchEmployee (some mgr7) "Employee" [recOwned7, recOwned9]
        = RouteResult.okList 2 [parseRecord recOwned7, parseRecord recOwned9] := by
  refine ⟨by decide, by decide, by decide, by decide, by decide, by decide⟩

/-- C2 (code bug): an authenticated non-admin Manager with the create
permission creates an Employee record whose body carries ownerId 999; the
stored record keeps the client-submitted 999 instead of the actor id 7,
because checkPermission never stores req.modelDefinition for a create and
the owner auto-assignment in the route is therefore dead. -/
theorem createRecord_keeps_spoofed_owner :
    hasPermission employeeModel.rbac mgr7.role Permission.create = true
    ∧ employeeModel.ownerField = some "ownerId"
    ∧ mgr7.role ≠ "Admin"
    ∧ mgr7.userId = 7
    ∧ (createRecord fetchEmployee (some mgr7) "Employee"
          [("name", JsValue.str "x"), ("ownerId", JsValue.num 999)]
          (JsValue.str "t3") []).2
        = [⟨1, "Employee", [("name", JsValue.str "x"), ("ownerId", JsValue.num 999)],
            JsValue.str "t3", JsValue.str "t3"⟩] := by
  refine ⟨by decide, by decide, by decide, by decide, by decide⟩

/-- C5 counterexample: when the injected model-definition fetch fails, the
pipeline responds with the 404 model-not-found denial, byte-identical to
the response for a genuinely absent model; no lookup-failed reason is ever
produced. -/
theorem checkPermission_failure_reported_as_not_found :
    checkPermission none fetchFailing ⟨some mgr7, "GET", some "Employee"⟩
        = CheckResult.respond 404 "Model not found: Employee"
    ∧ checkPermission none fetchFailing ⟨some mgr7, "GET", some "Employee"⟩
        = checkPermission none fetchAbsent ⟨some mgr7, "GET", some "Employee"⟩ := by
  refine ⟨by decide, by decide⟩

/-- C5 as amended: a collaborator failure on the model fetch is never an
allow — the pipeline denies — but the denial is the 404 model-not-found
response, indistinguishable from model absence. -/
theorem checkPermission_failure_denies_as_not_found (fetch fetch2 : String → ModelFetch)
    (u : User) (mn method : String) (hrole : u.role ≠ "Admin") (hmn : mn ≠ "")
    (hf : fetch mn = ModelFetch.failure) (hf2 : fetch2 mn = ModelFetch.absent) :
    checkPermission none fetch ⟨some u, method, some mn⟩
        = CheckResult.respond 404 ("Model not found: " ++ mn)
    ∧ checkPermission none fetch ⟨some u, method, some mn⟩
        = checkPermission none fetch2 ⟨some u, method, some mn⟩ := by
  have hmn2 : (mn == "") = false := by simpa [beq_iff_eq] using hmn
  have hadmin : isAdmin u.role = false := by
    simpa [isAdmin, beq_iff_eq] using hrole
  have h1 : checkPermission none fetch ⟨some u, method, some mn⟩
      = CheckResult.respond 404 ("Model not found: " ++ mn) := by
    simp [checkPermission, strFalsy, hmn2, hadmin, loadModelDefinition, hf]
  have h2 : checkPermission none fetch2 ⟨some u, method, some mn⟩
      = CheckResult.respond 404 ("Model not found: " ++ mn) := by
    simp [checkPermission, strFalsy, hmn2, hadmin, loadModelDefinition, hf2]
  exact ⟨h1, h1.trans h2.symm⟩

/-- C5 amended witness: the amended statement applied to the concrete
failing store. -/
theorem checkPermission_failure_denies_as_not_found_witness :
    checkPermission none fetchFailing ⟨some editor5, "PUT", some "Task"⟩
        = CheckResult.respond 404 ("Model not found: " ++ "Task") := by
  exact (checkPermission_failure_denies_as_not_found fetchFailing fetchAbsent editor5
    "Task" "PUT" (by decide) (by decide) rfl rfl).1

/-- C6 (code bug): the validator accepts a candidate whose required, unique
and timestamps are unspecified and returns it unchanged: none of the
documented defaults (required false, unique false, timestamps true) is
applied, because each Zod chain wraps the default inside optional and
ZodOptional returns undefined before ZodDefault can fire. -/
theorem validate_leaves_defaults_unapplied :
    validateModelDefinition minimalCandidate = ValidationResult.ok minimalCandidate
    ∧ minimalCandidate.fields.map (fun f => f.required) = [none]
    ∧ minimalCandidate.fields.map (fun f => f.unique) = [none]
    ∧ minimalCandidate.timestamps = none := by
  refine ⟨by decide, by decide, by decide, by decide⟩

/-- C7 counterexample: a batch containing the Employee model twice — two
entries with the same name — passes multi-model validation. -/
theorem duplicate_batch_accepted :
    validateModelDefinitions [employeeModel, employeeModel]
        = ValidationResult.ok [employeeModel, employeeModel] := by
  decide

/-- C7 as amended: multi-model validation never rejects duplicate names —
every batch whose entries are each individually valid and whose relation
targets all resolve among the batch names validates successfully,
regardless of how many entries share a name. -/
theorem duplicate_batch_accepted_general (models : List ModelDefinition)
    (h1 : models.all modelOk = true)
    (h2 : models.all (relationTargetsOk (models.map (fun m => m.name))) = true) :
    validateModelDefinitions models = ValidationResult.ok models := by
  simp [validateModelDefinitions, h1, h2]

/-- C7 amended witness: the amended statement applied to a batch of the shape
A, B, A, in which the first and third entries share the name A. -/
theorem duplicate_batch_accepted_general_witness :
    validateModelDefinitions [minimalCandidate, employeeModel, minimalCandidate]
        = ValidationResult.ok [minimalCandidate, employeeModel, minimalCandidate] := by
  exact duplicate_batch_accepted_general [minimalCandidate, employeeModel, minimalCandidate]
    (by decide) (by decide)

/-- For an authenticated non-admin actor holding the mapped permission on a
fetched model, checkPermission runs next(), storing req.modelDefinition
exactly when the permission is update or delete and the model has a truthy
ownerField. -/
theorem checkPermission_nonadmin (fetch : String → ModelFetch) (u : User) (mn : String)
    (model : ModelDefinition) (method : String) (perm : Permission)
    (hmn : mn ≠ "") (hrole : u.role ≠ "Admin")
    (hfetch : fetch mn = ModelFetch.found model)
    (hmap : mapMethodToPermission method = some perm)
    (hp : hasPermission model.rbac u.role perm = true) :
    checkPermission none fetch ⟨some u, method, some mn⟩ =
      (if (perm == Permission.update || perm == Permission.delete)
          && strTruthy model.ownerField
       then CheckResult.next (some model) (some perm)
       else CheckResult.next none none) := by
  have hmn2 : (mn == "") = false := by simpa [beq_iff_eq] using hmn
  have hadmin : isAdmin u.role = false := by
    simpa [isAdmin, beq_iff_eq] using hrole
  simp [checkPermission, strFalsy, hmn2, hadmin, loadModelDefinition, hfetch, hmap, hp]

/-- Reading a non-metadata key of a parsed record reads the stored data. -/
theorem parseRecord_get_data (r : StoredRecord) (k : String)
    (hdata : (r.data.map Prod.fst).Nodup)
    (h1 : k ≠ "id") (h2 : k ≠ "createdAt") (h3 : k ≠ "updatedAt") :
    Obj.get (parseRecord r) k = Obj.get r.data k := by
  unfold parseRecord
  rw [Obj.get_set_ne _ _ _ _ h3, Obj.get_set_ne _ _ _ _ h2, Obj.get_merge _ _ _ hdata]
  cases hl : Obj.get r.data k with
  | none =>
    have hid : (k == "id") = false := by simpa [beq_iff_eq] using h1
    simp [hl, Obj.get, List.lookup, hid]
  | some v => simp [hl]

/-- C4: for a single-record update or delete by an authenticated non-admin
actor holding the required permission on a model with an ownerField, an
absent record yields the 404 not-found denial, an existing record owned by
someone else yields the 403 not-owner denial, and an existing record owned
by the actor is allowed. -/
theorem ownership_gate_update_delete (fetch : String → ModelFetch) (u : User)
    (mn of : String) (model : ModelDefinition) (db : List StoredRecord) (rid : Nat)
    (body : Obj) (now : JsValue)
    (hmn : mn ≠ "") (hrole : u.role ≠ "Admin")
    (hfetch : fetch mn = ModelFetch.found model)
    (hof : model.ownerField = some of) (hof2 : of ≠ "") :
    (hasPermission model.rbac u.role Permission.update = true →
      ((findRecord db mn rid = none →
          (updateRecord fetch (some u) mn rid body now db).1
            = RouteResult.err 404 "Record not found")
       ∧ (∀ r, findRecord db mn rid = some r →
            jsEqNum (Obj.get (parseRecord r) of) (some u.userId) = false →
            (updateRecord fetch (some u) mn rid body now db).1
              = RouteResult.err 403 "Access denied: You can only update your own records")
       ∧ (∀ r, findRecord db mn rid = some r →
            jsEqNum (Obj.get (parseRecord r) of) (some u.userId) = true →
            ∃ o, (updateRecord fetch (some u) mn rid body now db).1
              = RouteResult.okRecord o)))
    ∧ (hasPermission model.rbac u.role Permission.delete = true →
      ((findRecord db mn rid = none →
          (deleteRecord fetch (some u) mn rid db).1
            = RouteResult.err 404 "Record not found")
       ∧ (∀ r, findRecord db mn rid = some r →
            jsEqNum (Obj.get (parseRecord r) of) (some u.userId) = false →
            (deleteRecord fetch (some u) mn rid db).1
              = RouteResult.err 403 "Access denied: You can only delete your own records")
       ∧ (∀ r, findRecord db mn rid = some r →
            jsEqNum (Obj.get (parseRecord r) of) (some u.userId) = true →
            (deleteRecord fetch (some u) mn rid db).1
              = RouteResult.okRecord (parseRecord r)))) := by
  have hoft : strTruthy model.ownerField = true := by
    rw [hof]
    simpa [strTruthy, bne_iff_ne] using hof2
  have hrb : (u.role == "Admin") = false := by simpa [beq_iff_eq] using hrole
  have hoft2 : strTruthy (some of) = true := hof ▸ hoft
  constructor
  · intro hp
    have hgate := checkPermission_nonadmin fetch u mn model "PUT" Permission.update
      hmn hrole hfetch (by decide) hp
    rw [if_pos (by simp [hoft])] at hgate
    refine ⟨?_, ?_, ?_⟩
    · intro hfind
      simp [updateRecord, hgate, hfind]
    · intro r hfind hown
      simp [updateRecord, hgate, hfind, hof, hoft, hoft2, hrb, hown]
    · intro r hfind hown
      simp [updateRecord, hgate, hfind, hof, hoft, hoft2, hrb, hown]
  · intro hp
    have hgate := checkPermission_nonadmin fetch u mn model "DELETE" Permission.delete
      hmn hrole hfetch (by decide) hp
    rw [if_pos (by simp [hoft])] at hgate
    refine ⟨?_, ?_, ?_⟩
    · intro hfind
      simp [deleteRecord, hgate, hfind]
    · intro r hfind hown
      simp [deleteRecord, hgate, hfind, hof, hoft, hoft2, hrb, hown]
    · intro r hfind hown
      simp [deleteRecord, hgate, hfind, hof, hoft, hoft2, hrb, hown]

/-- C4 witness: all six branches at concrete stores and records. -/
theorem ownership_gate_update_delete_witness :
    (updateRecord fetchEmployee (some mgr7) "Employee" 5 [] (JsValue.str "t")
        [recOwned7, recOwned9]).1 = RouteResult.err 404 "Record not found"
    ∧ (updateRecord fetchEmployee (some mgr7) "Employee" 2 [] (JsValue.str "t")
        [recOwned7, recOwned9]).1
        = RouteResult.err 403 "Access denied: You can only update your own records"
    ∧ (∃ o, (updateRecord fetchEmployee (some mgr7) "Employee" 1 [] (JsValue.str "t")
        [recOwned7, recOwned9]).1 = RouteResult.okRecord o)
    ∧ (deleteRecord fetchTask (some editor5) "Task" 9 [taskOwned5, taskOwned8]).1
        = RouteResult.err 404 "Record not found"
    ∧ (deleteRecord fetchTask (some editor5) "Task" 4 [taskOwned5, taskOwned8]).1
        = RouteResult.err 403 "Access denied: You can only delete your own records"
    ∧ (deleteRecord fetchTask (some editor5) "Task" 3 [taskOwned5, taskOwned8]).1
        = RouteResult.okRecord (parseRecord taskOwned5) := by
  refine ⟨?_, ?_, ?_, ?_, ?_, ?_⟩
  · exact ((ownership_gate_update_delete fetchEmployee mgr7 "Employee" "ownerId"
      employeeModel [recOwned7, recOwned9] 5 [] (JsValue.str "t") (by decide) (by decide)
      (by decide) (by decide) (by decide)).1 (by decide)).1 (by decide)
  · exact (((ownership_gate_update_delete fetchEmployee mgr7 "Employee" "ownerId"
      employeeModel [recOwned7, recOwned9] 2 [] (JsValue.str "t") (by decide) (by decide)
      (by decide) (by decide) (by decide)).1 (by decide)).2.1 recOwned9 (by decide)
      (by decide))
  · exact (((ownership_gate_update_delete fetchEmployee mgr7 "Employee" "ownerId"
      employeeModel [recOwned7, recOwned9] 1 [] (JsValue.str "t") (by decide) (by decide)
      (by decide) (by decide) (by decide)).1 (by decide)).2.2 recOwned7 (by decide)
      (by decide))
  · exact (((ownership_gate_update_delete fetchTask editor5 "Task" "ownerId"
      taskModel [taskOwned5, taskOwned8] 9 [] (JsValue.str "t") (by decide) (by decide)
      (by decide) (by decide) (by decide)).2 (by decide)).1 (by decide))
  · exact (((ownership_gate_update_delete fetchTask editor5 "Task" "ownerId"
      taskModel [taskOwned5, taskOwned8] 4 [] (JsValue.str "t") (by decide) (by decide)
      (by decide) (by decide) (by decide)).2 (by decide)).2.1 taskOwned8 (by decide)
      (by decide))
  · exact (((ownership_gate_update_delete fetchTask editor5 "Task" "ownerId"
      taskModel [taskOwned5, taskOwned8] 3 [] (JsValue.str "t") (by decide) (by decide)
      (by decide) (by decide) (by decide)).2 (by decide)).2.2 taskOwned5 (by decide)
      (by decide))

/-- C9: a successful single-record update by an authenticated non-admin actor
on a model with an ownerField stores a record whose owner value equals the
value stored before the update, whatever the body submitted for that field,
while every other submitted field is merged over the previous data. -/
theorem update_preserves_owner_and_merges (fetch : String → ModelFetch) (u : User)
    (mn of : String) (model : ModelDefinition) (db : List StoredRecord) (rid : Nat)
    (body : Obj) (now : JsValue) (r : StoredRecord)
    (hmn : mn ≠ "") (hrole : u.role ≠ "Admin")
    (hfetch : fetch mn = ModelFetch.found model)
    (hof : model.ownerField = some of) (hof2 : of ≠ "")
    (hp : hasPermission model.rbac u.role Permission.update = true)
    (hfind : findRecord db mn rid = some r)
    (hown : jsEqNum (Obj.get (parseRecord r) of) (some u.userId) = true)
    (hdata : (r.data.map Prod.fst).Nodup)
    (hbody : (body.map Prod.fst).Nodup)
    (hid : of ≠ "id") (hca : of ≠ "createdAt") (hua : of ≠ "updatedAt") :
    ∃ newData,
      (updateRecord fetch (some u) mn rid body now db).1
          = RouteResult.okRecord
              (parseRecord ⟨r.id, r.modelName, newData, r.createdAt, now⟩)
      ∧ Obj.get newData of = Obj.get r.data of
      ∧ (∀ k, k ≠ of → k ≠ "id" → k ≠ "createdAt" → k ≠ "updatedAt" →
          Obj.get newData k
            = ((Obj.get body k).orElse (fun _ => Obj.get (parseRecord r) k))) := by
  have hoft : strTruthy model.ownerField = true := by
    rw [hof]
    simpa [strTruthy, bne_iff_ne] using hof2
  have hoft2 : strTruthy (some of) = true := hof ▸ hoft
  have hrb : (u.role == "Admin") = false := by simpa [beq_iff_eq] using hrole
  have hgate := checkPermission_nonadmin fetch u mn model "PUT" Permission.update
    hmn hrole hfetch (by decide) hp
  rw [if_pos (by simp [hoft])] at hgate
  have hsome : Obj.get (parseRecord r) of = some (JsValue.num u.userId) := by
    cases hv : Obj.get (parseRecord r) of with
    | none => rw [hv] at hown; simp [jsEqNum] at hown
    | some v =>
      cases v with
      | num n =>
        rw [hv] at hown
        simp only [jsEqNum, beq_iff_eq] at hown
        rw [hown]
      | str s => rw [hv] at hown; simp [jsEqNum] at hown
      | bool b => rw [hv] at hown; simp [jsEqNum] at hown
      | null => rw [hv] at hown; simp [jsEqNum] at hown
  refine ⟨Obj.remove (Obj.remove (Obj.remove
      (Obj.set (Obj.merge (parseRecord r) body) of (JsValue.num u.userId))
      "id") "createdAt") "updatedAt", ?_, ?_, ?_⟩
  · have hje : jsEqNum (some (JsValue.num u.userId)) (some u.userId) = true := by
      simp [jsEqNum]
    simp [updateRecord, hgate, hfind, hof, hoft2, hrb, Obj.setFrom, hsome, hje]
  · rw [Obj.get_remove_ne _ _ _ hua, Obj.get_remove_ne _ _ _ hca,
      Obj.get_remove_ne _ _ _ hid, Obj.get_set_self]
    rw [← parseRecord_get_data r of hdata hid hca hua, hsome]
  · intro k hk1 hk2 hk3 hk4
    rw [Obj.get_remove_ne _ _ _ hk4, Obj.get_remove_ne _ _ _ hk3,
      Obj.get_remove_ne _ _ _ hk2, Obj.get_set_ne _ _ _ _ hk1,
      Obj.get_merge _ _ _ hbody]

/-- C9 witness: updating the record owned by user 7 with a body that tries to
set ownerId to 42 keeps ownerId 7 in the stored data. -/
theorem update_preserves_owner_and_merges_witness :
    ∃ newData,
      (updateRecord fetchEmployee (some mgr7) "Employee" 1
          [("ownerId", JsValue.num 42), ("name", JsValue.str "z")] (JsValue.str "t4")
          [recOwned7, recOwned9]).1
          = RouteResult.okRecord
              (parseRecord ⟨recOwned7.id, recOwned7.modelName, newData,
                recOwned7.createdAt, JsValue.str "t4"⟩)
      ∧ Obj.get newData "ownerId" = Obj.get recOwned7.data "ownerId"
      ∧ (∀ k, k ≠ "ownerId" → k ≠ "id" → k ≠ "createdAt" → k ≠ "updatedAt" →
          Obj.get newData k
            = ((Obj.get [("ownerId", JsValue.num 42), ("name", JsValue.str "z")] k).orElse
                (fun _ => Obj.get (parseRecord recOwned7) k))) := by
  exact update_preserves_owner_and_merges fetchEmployee mgr7 "Employee" "ownerId"
    employeeModel [recOwned7, recOwned9] 1
    [("ownerId", JsValue.num 42), ("name", JsValue.str "z")] (JsValue.str "t4") recOwned7
    (by decide) (by decide) (by decide) (by decide) (by decide) (by decide) (by decide)
    (by decide) (by decide) (by decide) (by decide) (by decide) (by decide)

/-- Digit characters are produced only for digits below ten. -/
theorem charOfDigit_isDigit (d : Nat) (h : d < 10) : (charOfDigit d).isDigit = true := by
  interval_cases d <;> decide

/-- Printing then parsing one digit is the identity below ten. -/
theorem digitOfChar_charOfDigit (d : Nat) (h : d < 10) : digitOfChar (charOfDigit d) = d := by
  interval_cases d <;> decide

/-- Every character of a printed number is a digit. -/
theorem natDigits_isDigit (k : Nat) (c : Char) (hc : c ∈ natDigits k) : c.isDigit = true := by
  unfold natDigits at hc
  by_cases hk : k = 0
  · rw [if_pos hk] at hc
    simp only [List.mem_singleton] at hc
    rw [hc]
    decide
  · rw [if_neg hk] at hc
    simp only [List.mem_map, List.mem_reverse] at hc
    obtain ⟨d, hd, rfl⟩ := hc
    exact charOfDigit_isDigit d (Nat.digits_lt_base (by norm_num) hd)

/-- A printed number has at least one character. -/
theorem natDigits_ne_nil (k : Nat) : natDigits k ≠ [] := by
  unfold natDigits
  by_cases hk : k = 0
  · rw [if_pos hk]
    simp
  · rw [if_neg hk]
    simp [Nat.digits_ne_nil_iff_ne_zero.mpr hk]

/-- Parsing a printed number returns the number. -/
theorem digitsVal_natDigits (k : Nat) : digitsVal (natDigits k) = k := by
  unfold digitsVal natDigits
  by_cases hk : k = 0
  · rw [if_pos hk, hk]
    decide
  · rw [if_neg hk]
    rw [List.map_reverse, List.map_map, List.map_reverse, List.reverse_reverse]
    have hmap : (Nat.digits 10 k).map (digitOfChar ∘ charOfDigit) = Nat.digits 10 k := by
      have h1 : (Nat.digits 10 k).map (digitOfChar ∘ charOfDigit)
          = (Nat.digits 10 k).map id := by
        apply List.map_congr_left
        intro d hd
        exact digitOfChar_charOfDigit d (Nat.digits_lt_base (by norm_num) hd)
      rw [h1, List.map_id]
    rw [hmap]
    exact_mod_cast Nat.ofDigits_digits 10 k

/-- takeWhile collects a satisfying block up to the first failing element. -/
theorem takeWhile_append_stop (p : Char → Bool) (a : List Char) (b : Char) (r : List Char)
    (ha : ∀ c ∈ a, p c = true) (hb : p b = false) :
    (a ++ b :: r).takeWhile p = a := by
  induction a with
  | nil => simp [List.takeWhile_cons, hb]
  | cons x t ih =>
    have hx : p x = true := ha x (by simp)
    simp [List.takeWhile_cons, hx, ih (fun c hc => ha c (by simp [hc]))]

/-- The file name written for version k parses back to version k. -/
theorem matchVersion_versionFileName (n : List Char) (k : Nat) :
    matchVersion (versionFileName n k) = some k := by
  have hrev : (versionFileName n k).reverse
      = 'n' :: 'o' :: 's' :: 'j' :: '.' ::
          ((natDigits k).reverse ++ ('v' :: '_' :: n.reverse)) := by
    unfold versionFileName
    simp [List.reverse_append]
  unfold matchVersion
  rw [hrev]
  have htake : ((natDigits k).reverse ++ ('v' :: '_' :: n.reverse)).takeWhile Char.isDigit
      = (natDigits k).reverse := by
    apply takeWhile_append_stop
    · intro c hc
      exact natDigits_isDigit k c (List.mem_reverse.mp hc)
    · decide
  have hne : ((natDigits k).reverse).isEmpty = false := by
    simp [List.isEmpty_iff, natDigits_ne_nil]
  simp only [revMatchVersion, htake, hne]
  rw [List.drop_left]
  simp [digitsVal_natDigits]

/-- A PascalCase model name contains no underscore. -/
theorem valid_no_underscore (s : List Char) (h : validModelNameChars s = true) :
    '_' ∉ s := by
  intro hmem
  cases s with
  | nil => simp at hmem
  | cons c rest =>
    simp only [validModelNameChars, Bool.and_eq_true] at h
    rcases List.mem_cons.mp hmem with hc | hc
    · rw [← hc] at h
      exact absurd h.1 (by decide)
    · have := List.all_eq_true.mp h.2 '_' hc
      exact absurd this (by decide)

/-- A prefix no longer than the left part of an append is a prefix of that
part. -/
theorem prefix_trunc {l a b : List Char} (h : l <+: a ++ b)
    (hlen : l.length ≤ a.length) : l <+: a := by
  have h1 : l = (a ++ b).take l.length := List.prefix_iff_eq_take.mp h
  rw [List.take_append_of_le_length hlen] at h1
  rw [h1]
  exact List.take_prefix _ _

/-- Underscore-free names are recovered uniquely from the version file name
prefix filter. -/
theorem prefix_name_eq (X n : List Char) (k : Nat) (hX : '_' ∉ X) (hn : '_' ∉ n)
    (h : (X ++ ['_', 'v']) <+: versionFileName n k) : X = n := by
  have h1 : X ++ ['_'] <+: versionFileName n k := by
    refine List.IsPrefix.trans ⟨['v'], ?_⟩ h
    simp
  have h2 : n ++ ['_'] <+: versionFileName n k := by
    refine ⟨'v' :: natDigits k ++ ['.', 'j', 's', 'o', 'n'], ?_⟩
    unfold versionFileName
    simp
  rcases List.prefix_or_prefix_of_prefix h1 h2 with hc | hc
  · have hlen : X.length + 1 ≤ n.length + 1 := by simpa using hc.length_le
    rcases Nat.lt_or_ge X.length n.length with hlt | hge
    · exfalso
      have hpn : X ++ ['_'] <+: n := prefix_trunc hc (by simpa using hlt)
      exact hn (hpn.sublist.mem (by simp))
    · have heq : X.length = n.length := Nat.le_antisymm (by omega) hge
      have := List.IsPrefix.eq_of_length hc (by simp [heq])
      exact List.append_cancel_right this
  · have hlen : n.length + 1 ≤ X.length + 1 := by simpa using hc.length_le
    rcases Nat.lt_or_ge n.length X.length with hlt | hge
    · exfalso
      have hpn : n ++ ['_'] <+: X := prefix_trunc hc (by simpa using hlt)
      exact hX (hpn.sublist.mem (by simp))
    · have heq : n.length = X.length := Nat.le_antisymm (by omega) hge
      have := List.IsPrefix.eq_of_length hc (by simp [heq])
      exact (List.append_cancel_right this).symm

/-- Appending a freshly written version file extends exactly the file list of
its own model name. -/
theorem modelVersionFiles_append (files : List (List Char)) (X n : List Char) (k : Nat)
    (hX : validModelNameChars X = true) (hn : validModelNameChars n = true) :
    modelVersionFiles (files ++ [versionFileName n k]) X
      = modelVersionFiles files X ++ (if X = n then [versionFileName n k] else []) := by
  unfold modelVersionFiles
  rw [List.filter_append]
  congr 1
  by_cases hxn : X = n
  · subst hxn
    rw [if_pos rfl]
    have hpre : (X ++ ['_', 'v']).isPrefixOf (versionFileName X k) = true := by
      apply List.isPrefixOf_iff_prefix.mpr
      refine ⟨natDigits k ++ ['.', 'j', 's', 'o', 'n'], ?_⟩
      unfold versionFileName
      simp
    have hsuf : List.isSuffixOf ['.', 'j', 's', 'o', 'n'] (versionFileName X k) = true := by
      apply List.isSuffixOf_iff_suffix.mpr
      exact ⟨X ++ ['_', 'v'] ++ natDigits k, by unfold versionFileName; simp⟩
    simp [List.filter, hpre, hsuf]
  · rw [if_neg hxn]
    have hpre : (X ++ ['_', 'v']).isPrefixOf (versionFileName n k) = false := by
      cases h : (X ++ ['_', 'v']).isPrefixOf (versionFileName n k)
      · rfl
      · exact absurd (prefix_name_eq X n k (valid_no_underscore X hX)
          (valid_no_underscore n hn) (List.isPrefixOf_iff_prefix.mp h)) hxn
    simp [List.filter, hpre]

/-- Math.max over a snoc. -/
theorem listMax_append_single (l : List Nat) (a : Nat) :
    listMax (l ++ [a]) = max (listMax l) a := by
  unfold listMax
  rw [List.foldl_append]
  rfl

/-- Math.max over the versions 1..n is n. -/
theorem listMax_range' (n : Nat) : listMax (List.range' 1 n) = n := by
  induction n with
  | zero => rfl
  | succ m ih =>
    rw [List.range'_1_concat, listMax_append_single, ih,
      Nat.max_eq_right (by omega)]
    omega

/-- With a directory whose files for each valid name are exactly versions
1..cnt, saving assigns version cnt+1 and appends that file. -/
theorem saveVersionedModel_spec (files : List (List Char)) (cnt : List Char → Nat)
    (X : List Char) (hX : validModelNameChars X = true)
    (hinv : ∀ Y, validModelNameChars Y = true →
      modelVersionFiles files Y = (List.range' 1 (cnt Y)).map (versionFileName Y)) :
    saveVersionedModel files X = (cnt X + 1, files ++ [versionFileName X (cnt X + 1)]) := by
  have hmv := hinv X hX
  unfold saveVersionedModel nextVersion
  rw [hmv]
  cases hc : cnt X with
  | zero => simp [hc]
  | succ m =>
    have hmap : ((List.range' 1 (m + 1)).map (versionFileName X)).map
        (fun f => (matchVersion f).getD 0) = List.range' 1 (m + 1) := by
      rw [List.map_map]
      have h1 : (List.range' 1 (m + 1)).map
          ((fun f => (matchVersion f).getD 0) ∘ versionFileName X)
          = (List.range' 1 (m + 1)).map id := by
        apply List.map_congr_left
        intro j hj
        simp [Function.comp, matchVersion_versionFileName]
      rw [h1, List.map_id]
    have hne : (((List.range' 1 (m + 1)).map (versionFileName X))).isEmpty = false := by
      simp [List.isEmpty_iff, List.range'_1_concat]
    simp only [hc, hne, Bool.false_eq_true, if_false, hmap, listMax_range']

/-- Generalized ledger invariant: starting from a directory holding versions
1..cnt per valid name, the saves of X within a run are assigned
cnt X + 1, cnt X + 2, ... in order. -/
theorem runSaves_spec (names : List (List Char)) :
    ∀ (files : List (List Char)) (cnt : List Char → Nat),
      (∀ Y, validModelNameChars Y = true →
        modelVersionFiles files Y = (List.range' 1 (cnt Y)).map (versionFileName Y)) →
      (∀ m ∈ names, validModelNameChars m = true) →
      ∀ X, validModelNameChars X = true →
        versionsFor X (runSaves files names) = List.range' (cnt X + 1) (names.count X) := by
  induction names with
  | nil =>
    intro files cnt hinv hval X hX
    simp [runSaves, versionsFor]
  | cons n rest ih =>
    intro files cnt hinv hval X hX
    have hn : validModelNameChars n = true := hval n (List.mem_cons_self n rest)
    have hsave := saveVersionedModel_spec files cnt n hn hinv
    have hinv2 : ∀ Y, validModelNameChars Y = true →
        modelVersionFiles (files ++ [versionFileName n (cnt n + 1)]) Y
          = (List.range' 1 ((fun Z => if Z = n then cnt Z + 1 else cnt Z) Y)).map
              (versionFileName Y) := by
      intro Y hY
      rw [modelVersionFiles_append files Y n (cnt n + 1) hY hn, hinv Y hY]
      by_cases hyn : Y = n
      · subst hyn
        simp only [eq_self_iff_true, if_true]
        rw [List.range'_1_concat, List.map_append]
        simp [Nat.add_comm]
      · simp [hyn]
    have hstep : runSaves files (n :: rest)
        = (n, cnt n + 1) :: runSaves (files ++ [versionFileName n (cnt n + 1)]) rest := by
      have h0 : runSaves files (n :: rest)
          = (n, (saveVersionedModel files n).1)
              :: runSaves (saveVersionedModel files n).2 rest := rfl
      rw [h0, hsave]
    rw [hstep]
    have hrest := ih (files ++ [versionFileName n (cnt n + 1)])
      (fun Z => if Z = n then cnt Z + 1 else cnt Z) hinv2
      (fun m hm => hval m (List.mem_cons_of_mem n hm)) X hX
    by_cases hnX : n = X
    · subst hnX
      simp only [eq_self_iff_true, if_true] at hrest
      unfold versionsFor at hrest ⊢
      rw [List.filter_cons_of_pos (by simp), List.map_cons, hrest,
        List.count_cons_self]
      rfl
    · have hXn : ¬ X = n := fun h => hnX h.symm
      simp only [if_neg hXn] at hrest
      unfold versionsFor at hrest ⊢
      rw [List.filter_cons_of_neg (by simpa [beq_iff_eq] using hnX), hrest,
        List.count_cons_of_ne hXn]

/-- C8: per model name, the versions assigned by the ledger across any run of
saves starting from an empty versions directory are exactly 1, 2, ..., N in
order, where N is the number of saves of that name in the run; saves of
other (PascalCase) model names interleaved in the run do not disturb the
numbering. -/
theorem version_ledger_sequence (names : List (List Char))
    (hval : ∀ m ∈ names, validModelNameChars m = true)
    (X : List Char) (hX : validModelNameChars X = true) :
    versionsFor X (runSaves [] names) = List.range' 1 (names.count X) := by
  have h := runSaves_spec names [] (fun _ => 0)
    (fun Y hY => by simp [modelVersionFiles]) hval X hX
  simpa using h

/-- C8 witness: an interleaved run Foo Bar Foo Foo Bar assigns Foo the
versions 1, 2, 3. -/
theorem version_ledger_sequence_witness :
    versionsFor "Foo".data (runSaves []
        ["Foo".data, "Bar".data, "Foo".data, "Foo".data, "Bar".data]) = [1, 2, 3] := by
  have h := version_ledger_sequence
    ["Foo".data, "Bar".data, "Foo".data, "Foo".data, "Bar".data]
    (by decide) "Foo".data (by decide)
  rw [h]
  decide
